import Mathlib

/-!
Verification of the pipeline/runner core (`kedro/pipeline/pipeline.py`,
`kedro/runner/runner.py`): a shallow embedding of the data model and the
operations, followed by theorems about them.

Dataset names are strings; a `Node` is the external contract consumed by the
pipeline (name, literal input/output names, tags).  A pipeline value is the
list of nodes handed to the `Pipeline` constructor; the constructor's
validations and the topological sort are embedded as functions on that list.
-/

/-- Modelled from the spec: the `Node` contract of `kedro.pipeline.node`
(not under `src/`): a named unit with ordered literal input names, ordered
literal output names and a set of tags.  The `tags` list models the tag set
together with its iteration order. -/
structure Node where
  name : String
  inputs : List String
  outputs : List String
  tags : List String
deriving DecidableEq, Repr

/-- Modelled from the spec: `Node.get_namespace` of `kedro.pipeline.node`
(not under `src/`): the longest prefix of the name not containing the
transcoding separator character, i.e. the substring up to (excluding) the
first separator, else the whole name. -/
def get_namespace (s : String) : String :=
  String.mk (s.data.takeWhile (fun c => c ≠ '@'))

/-- Modelled from the spec: `node.input_namespaces` is the input sequence
with `get_namespace` applied. -/
def Node.input_namespaces (n : Node) : List String :=
  n.inputs.map get_namespace

/-- Modelled from the spec: `node.output_namespaces` is the output sequence
with `get_namespace` applied. -/
def Node.output_namespaces (n : Node) : List String :=
  n.outputs.map get_namespace

/-- `isParent p n`: node `n` has a direct dependency on node `p`, i.e. some
output namespace of the parent `p` is an input namespace of the child `n`
(`Pipeline.node_dependencies`). -/
def isParent (p n : Node) : Prop :=
  ∃ o ∈ p.output_namespaces, o ∈ n.input_namespaces

instance (p n : Node) : Decidable (isParent p n) := by
  unfold isParent; infer_instance

/-- Set difference of name sets represented as lists (membership semantics,
as for Python's `set` difference). -/
def listDiff (a b : List String) : List String :=
  a.filter (fun x => decide (x ∉ b))

namespace Pipeline

/-- `Pipeline.all_inputs`: the union of every node's literal input names, as
a duplicate-free list. -/
def all_inputs (P : List Node) : List String :=
  (P.flatMap Node.inputs).dedup

/-- `Pipeline.all_outputs`: the union of every node's literal output names,
as a duplicate-free list. -/
def all_outputs (P : List Node) : List String :=
  (P.flatMap Node.outputs).dedup

/-- The `intermediate` set of `Pipeline._remove_intermediates`: namespaces
both consumed and produced inside the pipeline. -/
def intermediates (P : List Node) : List String :=
  ((all_inputs P).map get_namespace) ∩ ((all_outputs P).map get_namespace)

/-- `Pipeline._remove_intermediates`: drop the names whose namespace is both
consumed and produced inside the pipeline. -/
def remove_intermediates (P : List Node) (ds : List String) : List String :=
  ds.filter (fun d => decide (get_namespace d ∉ intermediates P))

/-- `Pipeline.inputs`: the free inputs that must be provided at runtime. -/
def inputs (P : List Node) : List String :=
  remove_intermediates P (all_inputs P)

/-- `Pipeline.outputs`: the terminal outputs of the pipeline. -/
def outputs (P : List Node) : List String :=
  remove_intermediates P (all_outputs P)

/-- `Pipeline.data_sets`: all data sets used by the pipeline. -/
def data_sets (P : List Node) : List String :=
  (all_outputs P ++ all_inputs P).dedup

end Pipeline

/-- One round of the layered Kahn algorithm: the nodes of `remaining` none of
whose parents are still in `remaining` (equivalently, in the `toposort`
library's loop, the items whose dependency sets have been exhausted). -/
def readyNodes (remaining : List Node) : List Node :=
  remaining.filter (fun n => decide (¬ ∃ p ∈ remaining, isParent p n))

/-- Modelled from the spec: the layered topological sort performed by the
external `toposort` library on `Pipeline.node_dependencies` — repeatedly emit
the set of items with no unsatisfied dependencies; report a cycle (`none`)
when no item is ready while items remain.  The fuel argument only bounds the
recursion; one item is removed per round, so fuel `remaining.length` is never
exhausted (the library's `while True` loop likewise always terminates). -/
def toposortLayers : Nat → List Node → Option (List (List Node))
  | _, [] => some []
  | 0, _ :: _ => none
  | fuel + 1, x :: xs =>
    let remaining := x :: xs
    let ready := readyNodes remaining
    if ready = [] then none
    else
      (toposortLayers fuel (remaining.filter (fun n => decide (n ∉ ready)))).map
        (fun ls => ready :: ls)

/-- `_topologically_sorted(self.node_dependencies)`: the layered groups for a
pipeline's node list, `none` on a circular dependency. -/
def toposortNodes (P : List Node) : Option (List (List Node)) :=
  toposortLayers P.length P

namespace Pipeline

/-- `Pipeline.grouped_nodes`: the topologically ordered groups (for a
constructed pipeline, `toposortNodes` is `some`; the `[]` fallback is
unreachable then). -/
def grouped_nodes (P : List Node) : List (List Node) :=
  (toposortNodes P).getD []

/-- `Pipeline.nodes`: the pipeline nodes in topological order, the layers
concatenated. -/
def nodes (P : List Node) : List Node :=
  (grouped_nodes P).flatten

end Pipeline

/-- `_validate_duplicate_nodes`: the node names that appear more than once. -/
def duplicateNames (nodes : List Node) : List String :=
  (nodes.map Node.name).dedup.filter (fun m => (nodes.map Node.name).count m > 1)

/-- `_validate_namespaced_inputs_outputs`: the namespaces of transcoded names
that also appear verbatim among the literal input/output names. -/
def transcodingInvalid (nodes : List Node) : List String :=
  let allNames := (nodes.flatMap Node.inputs ++ nodes.flatMap Node.outputs).dedup
  (allNames.filter
    (fun d => decide (get_namespace d ≠ d ∧ get_namespace d ∈ allNames))).map
    get_namespace

/-- `_validate_unique_outputs`: the output namespaces produced by more than
one node. -/
def duplicateOutputs (nodes : List Node) : List String :=
  let outs := nodes.flatMap Node.output_namespaces
  outs.dedup.filter (fun o => outs.count o > 1)

/-- The errors `Pipeline.__init__` can raise. -/
inductive PipelineError where
  | noNodeList
  | duplicateNodeNames (dups : List String)
  | transcodingCollision (names : List String)
  | outputNotUnique (outs : List String)
  | circularDependency
deriving DecidableEq, Repr

/-- `Pipeline.__init__` (with `name = None`, and the node iterable already
flattened to plain nodes): the null check, then the validators in source
order, then the eager topological sort.  `none` models the `None` sentinel
rejected by `_validate_no_node_list`; the resulting pipeline value is the
validated node list. -/
def mkPipeline : Option (List Node) → Except PipelineError (List Node)
  | none => .error .noNodeList
  | some nodes =>
    if duplicateNames nodes ≠ [] then
      .error (.duplicateNodeNames (duplicateNames nodes))
    else if transcodingInvalid nodes ≠ [] then
      .error (.transcodingCollision (transcodingInvalid nodes))
    else if duplicateOutputs nodes ≠ [] then
      .error (.outputNotUnique (duplicateOutputs nodes))
    else
      match toposortNodes nodes with
      | none => .error .circularDependency
      | some _ => .ok nodes

/-- A pipeline value is valid when the constructor accepts it. -/
def Valid (P : List Node) : Prop :=
  mkPipeline (some P) = .ok P

/-- The node set `set(chain.from_iterable(self._nodes_by_input[i] for i in s))`:
nodes with some input namespace among the names `s` (`_nodes_by_input` is
keyed by input namespace).  The filter order over `P` refines the Python
set's arbitrary iteration order. -/
def consumersOf (P : List Node) (s : List String) : List Node :=
  P.filter (fun n => decide (∃ i ∈ n.input_namespaces, i ∈ s))

/-- The node set `{self._nodes_by_output[o] for o in s if o in ...}`: nodes
with some output namespace among the names `s` (`_nodes_by_output` is keyed
by output namespace; for a validated pipeline the producer of each output
namespace is unique, so the filter equals the dict-lookup set). -/
def producersOf (P : List Node) (s : List String) : List Node :=
  P.filter (fun n => decide (∃ o ∈ n.output_namespaces, o ∈ s))

/-- `set(chain.from_iterable(node.outputs for node in ns))` as a list. -/
def outputsOfList (ns : List Node) : List String :=
  ns.flatMap Node.outputs

/-- `set(chain.from_iterable(node.inputs for node in ns))` as a list. -/
def inputsOfList (ns : List Node) : List String :=
  ns.flatMap Node.inputs

namespace Pipeline

/-- `Pipeline.only_nodes`: exactly the named nodes (`_nodes_by_name` lookup);
`none` models the `ValueError` on unregistered node names. -/
def only_nodes (P : List Node) (names : List String) : Option (List Node) :=
  if names.all (fun m => decide (∃ n ∈ P, n.name = m)) then
    some (names.filterMap (fun m => P.find? (fun n => decide (n.name = m))))
  else none

/-- `Pipeline.only_nodes_with_inputs`: nodes depending directly on the given
names; `none` models the `ValueError` when a name is not a pipeline data set. -/
def only_nodes_with_inputs (P : List Node) (s : List String) : Option (List Node) :=
  if s.all (fun d => decide (d ∈ data_sets P)) then some (consumersOf P s)
  else none

/-- `Pipeline.only_nodes_with_outputs`: nodes directly producing the given
names; `none` models the `ValueError` when a name is not a pipeline data set. -/
def only_nodes_with_outputs (P : List Node) (s : List String) : Option (List Node) :=
  if s.all (fun d => decide (d ∈ data_sets P)) then some (producersOf P s)
  else none

/-- The `while True` frontier loop of `Pipeline.from_inputs`: take the
consumers of the current frontier, accumulate them, and make their literal
outputs the next frontier, until no consumer is found.  The source loop has
no fuel; for a constructed (acyclic) pipeline the frontier empties within
`P.length` rounds, so fuel `P.length + 1` never runs out. -/
def fromInputsAux (P : List Node) : Nat → List String → List Node → List Node
  | 0, _, acc => acc
  | fuel + 1, starting, acc =>
    let ns := consumersOf P starting
    if ns = [] then acc
    else fromInputsAux P fuel (outputsOfList ns) (acc ∪ ns)

/-- `Pipeline.from_inputs`: nodes depending directly or transitively on the
given names. -/
def from_inputs (P : List Node) (s : List String) : Option (List Node) :=
  if s.all (fun d => decide (d ∈ data_sets P)) then
    some (fromInputsAux P (P.length + 1) s [])
  else none

/-- The `while True` frontier loop of `Pipeline.to_outputs`: take the
producers of the current frontier, accumulate them, and make their literal
inputs the next frontier, until no producer is found. -/
def toOutputsAux (P : List Node) : Nat → List String → List Node → List Node
  | 0, _, acc => acc
  | fuel + 1, starting, acc =>
    let ns := producersOf P starting
    if ns = [] then acc
    else toOutputsAux P fuel (inputsOfList ns) (acc ∪ ns)

/-- `Pipeline.to_outputs`: nodes required directly or transitively to produce
the given names. -/
def to_outputs (P : List Node) (s : List String) : Option (List Node) :=
  if s.all (fun d => decide (d ∈ data_sets P)) then
    some (toOutputsAux P (P.length + 1) s [])
  else none

/-- `Pipeline.__add__`: `Pipeline(set(self.nodes + other.nodes))` — the
deduplicated union of the two topologically sorted node lists, which the
constructor then re-validates.  Node values are compared structurally,
modelling the Python set's node value equality. -/
def add (P Q : List Node) : List Node :=
  (nodes P ++ nodes Q).dedup

/-- `res.all_outputs()` of `from_nodes`, as a list of literal names. -/
def allOutputsList (ns : List Node) : List String :=
  (ns.flatMap Node.outputs).dedup

/-- `Pipeline.from_nodes`: `res = only_nodes(names); res += from_inputs(res.all_outputs())`
(a `ValueError` from either selector propagates as `none`). -/
def from_nodes (P : List Node) (names : List String) : Option (List Node) :=
  match only_nodes P names with
  | none => none
  | some res =>
    match from_inputs P (allOutputsList res) with
    | none => none
    | some fi => some (add res fi)

end Pipeline

/-- Modelled from the spec: the `DataCatalog` contract of `kedro.io` (not
under `src/`): `registered` models the keys of `list()`; `persisted` the
names for which `exists()` is true.  The runner is the only consumer here,
and it only reads `list()`/`exists()` and mutates its shallow copy. -/
structure Catalog where
  registered : List String
  persisted : List String
deriving DecidableEq, Repr

/-- Modelled from the spec: `catalog.list()` as a duplicate-free list of
names. -/
def Catalog.listNames (c : Catalog) : List String :=
  c.registered.dedup

/-- Modelled from the spec: `catalog.exists(d)`. -/
def Catalog.existsDs (c : Catalog) (d : String) : Bool :=
  decide (d ∈ c.persisted)

/-- Modelled from the spec: `catalog.shallow_copy()` — a clone whose
registration map equals the original's; mutations of the clone do not affect
the original (values are immutable here, so the clone is the same value). -/
def Catalog.shallow_copy (c : Catalog) : Catalog := c

/-- The error `AbstractRunner.run` raises when pipeline inputs are missing
from the catalog (a `ValueError` in the source; `ConfigurationError` in the
spec's conceptual naming). -/
inductive RunError where
  | unsatisfiedInputs (missing : List String)
deriving DecidableEq, Repr

/-- The observable effects of a successful `AbstractRunner.run`, all applied
to the shallow copy of the caller's catalog: the default data sets added for
unregistered names, the `set_remaining_loads(name, count)` calls in order,
and the key set of the returned mapping (its values come from `catalog.load`
after the abstract `_run`, which the claims do not inspect). -/
structure RunResult where
  addedDefaults : List String
  loadCounts : List (String × Nat)
  returnedKeys : List String
deriving DecidableEq, Repr

/-- `AbstractRunner.run`: shallow-copy the catalog; fail when
`pipeline.inputs() - catalog.list()` is non-empty; record the free outputs
(`pipeline.outputs() - catalog.list()`, before any `add`); add default data
sets for `pipeline.data_sets() - catalog.list()`; call
`set_remaining_loads(d, len(pipeline.only_nodes_with_inputs(d).nodes))` for
every `d` in `pipeline.all_inputs()`; delegate to the abstract `_run`; return
the mapping keyed by the free outputs. -/
def run (P : List Node) (c : Catalog) : Except RunError RunResult :=
  let catalog := c.shallow_copy
  let unsatisfied := listDiff (Pipeline.inputs P) catalog.listNames
  if unsatisfied ≠ [] then .error (.unsatisfiedInputs unsatisfied)
  else
    let free_outputs := listDiff (Pipeline.outputs P) catalog.listNames
    let unregistered := listDiff (Pipeline.data_sets P) catalog.listNames
    let loadCounts := (Pipeline.all_inputs P).map
      (fun d => (d, (Pipeline.nodes (consumersOf P [d])).length))
    .ok { addedDefaults := unregistered
          loadCounts := loadCounts
          returnedKeys := free_outputs }

/-- The `to_rerun` pipeline computed by `AbstractRunner.run_only_missing`
before it delegates to `run`; `none` models a `ValueError` from one of the
selector calls.  The name sets are duplicate-free lists; the selectors they
are passed to only use their membership, as with Python's sets. -/
def toRerunOf (P : List Node) (c : Catalog) : Option (List Node) := do
  let free_outputs := listDiff (Pipeline.outputs P) c.listNames
  let missing := c.listNames.filter (fun d => !(c.existsDs d))
  let to_build := (free_outputs ++ missing).dedup
  let p1 ← Pipeline.only_nodes_with_outputs P to_build
  let p2 ← Pipeline.from_inputs P to_build
  let to_rerun := Pipeline.add p1 p2
  let memory_sets := listDiff (Pipeline.data_sets P) c.listNames
  let output_to_memory ← Pipeline.only_nodes_with_outputs P memory_sets
  let input_from_memory := (Pipeline.inputs to_rerun).inter memory_sets
  let extra ← Pipeline.to_outputs output_to_memory input_from_memory
  pure (Pipeline.add to_rerun extra)

/-- `AbstractRunner.run_only_missing`: compute `to_rerun` and delegate to
`run(to_rerun, catalog)`. -/
def runOnlyMissing (P : List Node) (c : Catalog) : Option (Except RunError RunResult) :=
  (toRerunOf P c).map (fun r => run r c)

/-- The key set of the mapping returned by `run_only_missing` (empty when a
selector failed or `run` raised). -/
def returnedKeysOf : Option (Except RunError RunResult) → List String
  | some (.ok r) => r.returnedKeys
  | _ => []

/-- Whether `run_only_missing` completed without raising. -/
def runOk : Option (Except RunError RunResult) → Bool
  | some (.ok _) => true
  | _ => false

/-- The per-node dictionary built by `Pipeline.to_json`: name, input
namespaces, output namespaces, and `list(n.tags)` (the tag set in its
iteration order, with no sorting applied). -/
structure JsonEntry where
  name : String
  inputs : List String
  outputs : List String
  tags : List String
deriving DecidableEq, Repr

/-- The `transformed` list of `Pipeline.to_json`: one entry per node of
`self.nodes`, in topological order. -/
def transformed (P : List Node) : List JsonEntry :=
  (Pipeline.nodes P).map
    (fun n => { name := n.name
                inputs := n.input_namespaces
                outputs := n.output_namespaces
                tags := n.tags })

/-- Modelled from the spec: `json.dumps` escaping of a character inside a
string literal (only the quote and the backslash occur in the names this
development manipulates). -/
def jsonEscapeChar (c : Char) : List Char :=
  if c = '"' then ['\\', '"']
  else if c = '\\' then ['\\', '\\']
  else [c]

/-- Modelled from the spec: a `json.dumps` string literal. -/
def jsonStr (s : String) : String :=
  "\"" ++ String.mk (s.data.flatMap jsonEscapeChar) ++ "\""

/-- Modelled from the spec: a `json.dumps` array of strings, with the default
item separator. -/
def jsonStrList (l : List String) : String :=
  "[" ++ String.intercalate ", " (l.map jsonStr) ++ "]"

/-- Modelled from the spec: the `json.dumps` serialization of one entry of
the `pipeline` list, keys in insertion order, default separators. -/
def entryJson (e : JsonEntry) : String :=
  "\x7b" ++ jsonStr "name" ++ ": " ++ jsonStr e.name ++ ", " ++
    jsonStr "inputs" ++ ": " ++ jsonStrList e.inputs ++ ", " ++
    jsonStr "outputs" ++ ": " ++ jsonStrList e.outputs ++ ", " ++
    jsonStr "tags" ++ ": " ++ jsonStrList e.tags ++ "\x7d"

/-- `Pipeline.to_json`: `json.dumps` of the single object
`pipeline_versioned` with keys `kedro_version` (the library version string,
passed as a parameter here) and `pipeline` (the transformed node list). -/
def to_json (version : String) (P : List Node) : String :=
  "\x7b" ++ (jsonStr "kedro_version" ++ ": " ++ jsonStr version ++ ", " ++
    jsonStr "pipeline" ++ ": [" ++
    String.intercalate ", " ((transformed P).map entryJson) ++ "]") ++ "\x7d"

deriving instance DecidableEq for Except

instance decValid (P : List Node) : Decidable (Valid P) := by
  unfold Valid; infer_instance

/-! ### Basic facts about namespaces and the node filters -/

/-- The index of the first layer containing a node (proof infrastructure). -/
def layerIdx (ls : List (List Node)) (n : Node) : Nat :=
  match ls with
  | [] => 0
  | l :: rest => if n ∈ l then 0 else layerIdx rest n + 1

/-- The next forward frontier: the literal outputs of the consumers of the
current frontier (proof infrastructure for the `from_inputs` loop). -/
def nextFrontierNames (P : List Node) (s : List String) : List String :=
  outputsOfList (consumersOf P s)

/-- The forward frontier after `k` rounds of the `from_inputs` loop. -/
def frontierNames (P : List Node) (s : List String) : Nat → List String
  | 0 => s
  | k + 1 => nextFrontierNames P (frontierNames P s k)

/-- The next backward frontier: the literal inputs of the producers of the
current frontier (proof infrastructure for the `to_outputs` loop). -/
def nextFrontierNamesB (P : List Node) (s : List String) : List String :=
  inputsOfList (producersOf P s)

/-- The backward frontier after `k` rounds of the `to_outputs` loop. -/
def frontierNamesB (P : List Node) (s : List String) : Nat → List String
  | 0 => s
  | k + 1 => nextFrontierNamesB P (frontierNamesB P s k)


/-! ### Concrete scenarios from the specification -/

/-- Scenario 1, first node: `f1(a, b) -> c`. -/
def f1 : Node := { name := "f1", inputs := ["a", "b"], outputs := ["c"], tags := [] }

/-- Scenario 1, second node: `f2(c) -> d`. -/
def f2 : Node := { name := "f2", inputs := ["c"], outputs := ["d"], tags := [] }

/-- The linear scenario-1 pipeline. -/
def sc1 : List Node := [f1, f2]

/-- Diamond scenario, first node: `d1(x) -> a`. -/
def d1 : Node := { name := "f1", inputs := ["x"], outputs := ["a"], tags := [] }

/-- Diamond scenario, second node: `d2(x) -> b`. -/
def d2 : Node := { name := "f2", inputs := ["x"], outputs := ["b"], tags := [] }

/-- Diamond scenario, third node: `d3(a, b) -> y`. -/
def d3 : Node := { name := "f3", inputs := ["a", "b"], outputs := ["y"], tags := [] }

/-- The diamond pipeline: two consumers of `x`, joined by `f3`. -/
def dmd : List Node := [d1, d2, d3]

/-- A node producing a transcoded output `x@csv`. -/
def g1 : Node := { name := "g1", inputs := ["a"], outputs := ["x@csv"], tags := [] }

/-- A node consuming the same surface through another encoding `x@parquet`. -/
def g2 : Node := { name := "g2", inputs := ["x@parquet"], outputs := ["b"], tags := [] }

/-- A valid pipeline in which `g2` consumes `g1`'s output at the namespace
level, while the literal names differ. -/
def tpipe : List Node := [g1, g2]

/-- A node whose tag set iterates in non-alphabetical order. -/
def tgNode : Node := { name := "t", inputs := ["a"], outputs := ["b"], tags := ["z", "q"] }

/-- The catalog of the `run_only_missing` scenario: `a`, `b`, `d` registered,
`d` not persisted. -/
def catC1 : Catalog := { registered := ["a", "b", "d"], persisted := ["a", "b"] }

/-- A catalog lacking `b`, for the missing-input scenario. -/
def catB : Catalog := { registered := ["a"], persisted := ["a"] }

/-- A catalog holding only `x`, for the diamond run scenario. -/
def catX : Catalog := { registered := ["x"], persisted := ["x"] }


theorem get_namespace_data (s : String) :
    (get_namespace s).data = s.data.takeWhile (fun c => c ≠ '@') := rfl

theorem string_mk_data (s : String) : String.mk s.data = s := by
  cases s; rfl

theorem get_namespace_no_sep (s : String) :
    ∀ c ∈ (get_namespace s).data, c ≠ '@' := by
  intro c hc
  have h := List.mem_takeWhile_imp (get_namespace_data s ▸ hc)
  simpa using h

theorem get_namespace_of_no_sep (s : String) (h : ∀ c ∈ s.data, c ≠ '@') :
    get_namespace s = s := by
  unfold get_namespace
  rw [List.takeWhile_eq_self_iff.mpr (by intro c hc; simpa using h c hc)]

theorem get_namespace_idem (s : String) :
    get_namespace (get_namespace s) = get_namespace s :=
  get_namespace_of_no_sep _ (get_namespace_no_sep s)

/-- A literal name that occurs among input (or output) namespaces is its own
namespace. -/
theorem eq_namespace_of_mem_map (o : String) (l : List String)
    (h : o ∈ l.map get_namespace) : get_namespace o = o := by
  rcases List.mem_map.mp h with ⟨x, _, hx⟩
  rw [← hx]; exact get_namespace_idem x

theorem mem_consumersOf (P : List Node) (s : List String) (n : Node) :
    n ∈ consumersOf P s ↔ n ∈ P ∧ ∃ i ∈ n.input_namespaces, i ∈ s := by
  simp [consumersOf, List.mem_filter]

theorem mem_producersOf (P : List Node) (s : List String) (n : Node) :
    n ∈ producersOf P s ↔ n ∈ P ∧ ∃ o ∈ n.output_namespaces, o ∈ s := by
  simp [producersOf, List.mem_filter]

theorem consumersOf_subset (P : List Node) (s : List String) :
    consumersOf P s ⊆ P :=
  fun _ hn => (List.mem_filter.mp hn).1

theorem producersOf_subset (P : List Node) (s : List String) :
    producersOf P s ⊆ P :=
  fun _ hn => (List.mem_filter.mp hn).1

theorem mem_readyNodes (R : List Node) (n : Node) :
    n ∈ readyNodes R ↔ n ∈ R ∧ ¬ ∃ p ∈ R, isParent p n := by
  simp [readyNodes, List.mem_filter]

/-- A literal output of a node, found among a consumer's input namespaces,
witnesses the dependency edge: the consumer's input namespaces contain no
separator, so the output equals its own namespace. -/
theorem isParent_of_output_mem (m n : Node) (o : String)
    (ho : o ∈ m.outputs) (hi : o ∈ n.input_namespaces) : isParent m n := by
  have hno : get_namespace o = o := eq_namespace_of_mem_map o n.inputs hi
  exact ⟨get_namespace o, List.mem_map_of_mem get_namespace ho, by rw [hno]; exact hi⟩

/-- Symmetrically: a literal input of a node, found among a producer's output
namespaces, witnesses the dependency edge. -/
theorem isParent_of_input_mem (m n : Node) (o : String)
    (ho : o ∈ n.inputs) (hi : o ∈ m.output_namespaces) : isParent m n := by
  have hno : get_namespace o = o := eq_namespace_of_mem_map o m.outputs hi
  exact ⟨o, hi, hno ▸ List.mem_map_of_mem get_namespace ho⟩

/-! ### Properties of the layered topological sort -/

theorem readyNodes_filter_eq (R : List Node) :
    R.filter (fun n => decide (n ∉ readyNodes R)) =
      R.filter (fun n => !decide (¬ ∃ p ∈ R, isParent p n)) := by
  apply List.filter_congr
  intro n hn
  have hiff : n ∈ readyNodes R ↔ ¬ ∃ p ∈ R, isParent p n := by
    rw [mem_readyNodes]; exact and_iff_right hn
  rw [decide_not, decide_eq_decide.mpr hiff]

theorem toposortLayers_flatten_perm :
    ∀ (fuel : Nat) (R : List Node) (ls : List (List Node)),
      toposortLayers fuel R = some ls → List.Perm ls.flatten R := by
  intro fuel
  induction fuel with
  | zero =>
    intro R ls h
    cases R with
    | nil => simp [toposortLayers] at h; subst h; simp
    | cons x xs => simp [toposortLayers] at h
  | succ fuel ih =>
    intro R ls h
    cases R with
    | nil => simp [toposortLayers] at h; subst h; simp
    | cons x xs =>
      simp only [toposortLayers] at h
      by_cases hr : readyNodes (x :: xs) = []
      · rw [if_pos hr] at h; cases h
      · rw [if_neg hr] at h
        rcases Option.map_eq_some'.mp h with ⟨ls', hls', rfl⟩
        have hperm := ih _ _ hls'
        rw [List.flatten_cons]
        refine ((hperm.append_left (readyNodes (x :: xs))).trans ?_)
        rw [readyNodes_filter_eq]
        exact List.filter_append_perm _ (x :: xs)

theorem toposortLayers_layered :
    ∀ (fuel : Nat) (R : List Node) (ls : List (List Node)),
      toposortLayers fuel R = some ls →
      ∀ (i : Nat) (hi : i < ls.length), ∀ n ∈ ls.get ⟨i, hi⟩,
        ∀ p ∈ R, isParent p n →
          ∃ (j : Nat) (hj : j < ls.length), j < i ∧ p ∈ ls.get ⟨j, hj⟩ := by
  intro fuel
  induction fuel with
  | zero =>
    intro R ls h
    cases R with
    | nil => simp [toposortLayers] at h; subst h; intro i hi; simp at hi
    | cons x xs => simp [toposortLayers] at h
  | succ fuel ih =>
    intro R ls h
    cases R with
    | nil => simp [toposortLayers] at h; subst h; intro i hi; simp at hi
    | cons x xs =>
      simp only [toposortLayers] at h
      by_cases hr : readyNodes (x :: xs) = []
      · rw [if_pos hr] at h; cases h
      · rw [if_neg hr] at h
        rcases Option.map_eq_some'.mp h with ⟨ls', hls', rfl⟩
        intro i hi n hn p hp hpar
        cases i with
        | zero =>
          exfalso
          have hrd := (mem_readyNodes _ n).mp (by simpa using hn)
          exact hrd.2 ⟨p, hp, hpar⟩
        | succ i' =>
          by_cases hpready : p ∈ readyNodes (x :: xs)
          · exact ⟨0, by simp, Nat.succ_pos _, by simpa using hpready⟩
          · have hp' : p ∈ (x :: xs).filter
                (fun m => decide (m ∉ readyNodes (x :: xs))) := by
              rw [List.mem_filter]
              exact ⟨hp, by simpa using hpready⟩
            have hi' : i' < ls'.length := by simpa using hi
            rcases ih _ _ hls' i' hi' n (by simpa using hn) p hp' hpar with
              ⟨j, hj, hji, hpj⟩
            exact ⟨j + 1, by simpa using hj, Nat.succ_lt_succ hji,
              by simpa using hpj⟩

theorem toposortLayers_ne_nil :
    ∀ (fuel : Nat) (R : List Node) (ls : List (List Node)),
      toposortLayers fuel R = some ls → ∀ l ∈ ls, l ≠ [] := by
  intro fuel
  induction fuel with
  | zero =>
    intro R ls h
    cases R with
    | nil => simp [toposortLayers] at h; subst h; simp
    | cons x xs => simp [toposortLayers] at h
  | succ fuel ih =>
    intro R ls h
    cases R with
    | nil => simp [toposortLayers] at h; subst h; simp
    | cons x xs =>
      simp only [toposortLayers] at h
      by_cases hr : readyNodes (x :: xs) = []
      · rw [if_pos hr] at h; cases h
      · rw [if_neg hr] at h
        rcases Option.map_eq_some'.mp h with ⟨ls', hls', rfl⟩
        intro l hl
        rcases List.mem_cons.mp hl with rfl | hl'
        · exact hr
        · exact ih _ _ hls' l hl'

theorem layers_length_le (ls : List (List Node)) (hne : ∀ l ∈ ls, l ≠ []) :
    ls.length ≤ ls.flatten.length := by
  induction ls with
  | nil => simp
  | cons l rest ih =>
    simp only [List.flatten_cons, List.length_append, List.length_cons]
    have h1 : 1 ≤ l.length := by
      cases l with
      | nil => exact absurd rfl (hne _ (by simp))
      | cons a as => simp
    have h2 := ih (fun m hm => hne m (by simp [hm]))
    omega

theorem toposortLayers_length_le (fuel : Nat) (R : List Node)
    (ls : List (List Node)) (h : toposortLayers fuel R = some ls) :
    ls.length ≤ R.length := by
  have h1 := layers_length_le ls (toposortLayers_ne_nil fuel R ls h)
  have h2 := (toposortLayers_flatten_perm fuel R ls h).length_eq
  omega

theorem layerIdx_lt_and_mem (ls : List (List Node)) (n : Node)
    (h : n ∈ ls.flatten) :
    ∃ hlt : layerIdx ls n < ls.length, n ∈ ls.get ⟨layerIdx ls n, hlt⟩ := by
  induction ls with
  | nil => simp at h
  | cons l rest ih =>
    by_cases hl : n ∈ l
    · exact ⟨by simp [layerIdx, hl], by simp [layerIdx, hl]⟩
    · have h' : n ∈ rest.flatten := by
        rcases List.mem_flatten.mp h with ⟨s, hs, hns⟩
        rcases List.mem_cons.mp hs with rfl | hs'
        · exact absurd hns hl
        · exact List.mem_flatten.mpr ⟨s, hs', hns⟩
      rcases ih h' with ⟨hlt, hmem⟩
      refine ⟨by simp [layerIdx, hl]; omega, ?_⟩
      simpa [layerIdx, hl] using hmem

theorem layerIdx_le (ls : List (List Node)) (n : Node) (j : Nat)
    (hj : j < ls.length) (h : n ∈ ls.get ⟨j, hj⟩) : layerIdx ls n ≤ j := by
  induction ls generalizing j with
  | nil => simp at hj
  | cons l rest ih =>
    cases j with
    | zero =>
      have : n ∈ l := by simpa using h
      simp [layerIdx, this]
    | succ j' =>
      by_cases hl : n ∈ l
      · simp [layerIdx, hl]
      · have hj' : j' < rest.length := by simpa using hj
        have := ih j' hj' (by simpa using h)
        simp [layerIdx, hl]
        omega

theorem layerIdx_parent_lt (fuel : Nat) (R : List Node) (ls : List (List Node))
    (h : toposortLayers fuel R = some ls) (p n : Node) (hp : p ∈ R) (hn : n ∈ R)
    (hpar : isParent p n) : layerIdx ls p < layerIdx ls n := by
  have hperm := toposortLayers_flatten_perm fuel R ls h
  have hnf : n ∈ ls.flatten := hperm.symm.subset hn
  rcases layerIdx_lt_and_mem ls n hnf with ⟨hlt, hmem⟩
  rcases toposortLayers_layered fuel R ls h (layerIdx ls n) hlt n hmem p hp hpar
    with ⟨j, hj, hji, hpj⟩
  have := layerIdx_le ls p j hj hpj
  omega

theorem exists_min_image_list {α : Type} (f : α → Nat) :
    ∀ (Q : List α), Q ≠ [] → ∃ n ∈ Q, ∀ m ∈ Q, f n ≤ f m := by
  intro Q
  induction Q with
  | nil => intro h; exact absurd rfl h
  | cons a Q ih =>
    intro _
    cases Q with
    | nil =>
      refine ⟨a, by simp, ?_⟩
      intro m hm
      rcases List.mem_singleton.mp hm with rfl
      exact le_rfl
    | cons b Q' =>
      rcases ih (by simp) with ⟨n, hn, hmin⟩
      by_cases hab : f a ≤ f n
      · refine ⟨a, by simp, ?_⟩
        intro m hm
        rcases List.mem_cons.mp hm with rfl | hm'
        · exact le_rfl
        · exact le_trans hab (hmin m hm')
      · refine ⟨n, by simp [hn], ?_⟩
        intro m hm
        rcases List.mem_cons.mp hm with rfl | hm'
        · exact le_of_lt (lt_of_not_le hab)
        · exact hmin m hm'

theorem length_filter_lt {α : Type} (p : α → Bool) (l : List α) (a : α)
    (ha : a ∈ l) (hpa : p a = false) : (l.filter p).length < l.length := by
  induction l with
  | nil => simp at ha
  | cons x xs ih =>
    rcases List.mem_cons.mp ha with rfl | ha'
    · rw [List.filter_cons_of_neg (by simp [hpa])]
      have := List.length_filter_le p xs
      simp
      omega
    · by_cases hx : p x
      · rw [List.filter_cons_of_pos hx]
        have := ih ha'
        simp
        omega
      · rw [List.filter_cons_of_neg (by simpa using hx)]
        have := ih ha'
        simp
        omega

theorem readyNodes_ne_nil_of_subset (fuel : Nat) (R : List Node)
    (ls : List (List Node)) (h : toposortLayers fuel R = some ls)
    (Q : List Node) (hQ : ∀ m ∈ Q, m ∈ R) (hne : Q ≠ []) :
    readyNodes Q ≠ [] := by
  rcases exists_min_image_list (layerIdx ls) Q hne with ⟨n, hn, hmin⟩
  intro hempty
  have hmem : n ∈ readyNodes Q := by
    rw [mem_readyNodes]
    refine ⟨hn, ?_⟩
    rintro ⟨p, hp, hpar⟩
    have hlt := layerIdx_parent_lt fuel R ls h p n (hQ p hp) (hQ n hn) hpar
    have := hmin p hp
    omega
  rw [hempty] at hmem
  simp at hmem

theorem toposortLayers_isSome_of_subset (fuelR : Nat) (R : List Node)
    (ls : List (List Node)) (h : toposortLayers fuelR R = some ls) :
    ∀ (fuel : Nat) (Q : List Node), Q.length ≤ fuel → (∀ m ∈ Q, m ∈ R) →
      (toposortLayers fuel Q).isSome := by
  intro fuel
  induction fuel with
  | zero =>
    intro Q hlen _
    have hq : Q = [] := List.length_eq_zero.mp (Nat.le_zero.mp hlen)
    subst hq
    simp [toposortLayers]
  | succ fuel ih =>
    intro Q hlen hsub
    cases Q with
    | nil => simp [toposortLayers]
    | cons x xs =>
      have hready := readyNodes_ne_nil_of_subset fuelR R ls h (x :: xs) hsub
        (by simp)
      simp only [toposortLayers]
      rw [if_neg hready]
      rcases List.exists_mem_of_ne_nil _ hready with ⟨r, hr⟩
      have hrQ : r ∈ x :: xs := (mem_readyNodes _ r).mp hr |>.1
      have hrf : (decide (r ∉ readyNodes (x :: xs))) = false := by
        simp [hr]
      have hlt := length_filter_lt (fun n => decide (n ∉ readyNodes (x :: xs)))
        (x :: xs) r hrQ hrf
      have hlenf : ((x :: xs).filter
          (fun n => decide (n ∉ readyNodes (x :: xs)))).length ≤ fuel := by
        have := hlen
        simp only [List.length_cons] at this
        omega
      have hres := ih _ hlenf
        (fun m hm => hsub m (List.mem_filter.mp hm).1)
      rcases Option.isSome_iff_exists.mp hres with ⟨ls', hls'⟩
      rw [hls']
      simp

/-! ### Consequences of constructor validation -/

theorem valid_toposort (P : List Node) (h : Valid P) :
    ∃ ls, toposortNodes P = some ls := by
  cases htop : toposortNodes P with
  | some ls => exact ⟨ls, rfl⟩
  | none =>
    exfalso
    unfold Valid at h
    simp only [mkPipeline] at h
    split at h
    · cases h
    · split at h
      · cases h
      · split at h
        · cases h
        · rw [htop] at h
          cases h

theorem nodes_perm_of_toposort (P : List Node) (ls : List (List Node))
    (h : toposortNodes P = some ls) : List.Perm (Pipeline.nodes P) P := by
  unfold Pipeline.nodes Pipeline.grouped_nodes
  rw [h]
  exact toposortLayers_flatten_perm _ _ _ h

theorem mem_nodes_iff_of_toposort (P : List Node) (ls : List (List Node))
    (h : toposortNodes P = some ls) (n : Node) :
    n ∈ Pipeline.nodes P ↔ n ∈ P :=
  (nodes_perm_of_toposort P ls h).mem_iff

theorem nodes_length_of_toposort (P : List Node) (ls : List (List Node))
    (h : toposortNodes P = some ls) : (Pipeline.nodes P).length = P.length :=
  (nodes_perm_of_toposort P ls h).length_eq

/-- Any membership-subset of a sortable node list is itself sortable: its own
topological sort succeeds (the sub-DAG of a DAG is a DAG). -/
theorem toposortNodes_isSome_of_subset (P : List Node) (ls : List (List Node))
    (h : toposortNodes P = some ls) (Q : List Node) (hQ : ∀ m ∈ Q, m ∈ P) :
    ∃ ls', toposortNodes Q = some ls' := by
  have := toposortLayers_isSome_of_subset P.length P ls h Q.length Q le_rfl hQ
  exact Option.isSome_iff_exists.mp this

/-! ### The frontier iterations of `from_inputs` and `to_outputs` -/

theorem frontierNames_shift (P : List Node) (s : List String) :
    ∀ k, frontierNames P (nextFrontierNames P s) k = frontierNames P s (k + 1) := by
  intro k
  induction k with
  | zero => rfl
  | succ k ih => show nextFrontierNames P _ = _; rw [ih]; rfl

theorem frontierNamesB_shift (P : List Node) (s : List String) :
    ∀ k, frontierNamesB P (nextFrontierNamesB P s) k = frontierNamesB P s (k + 1) := by
  intro k
  induction k with
  | zero => rfl
  | succ k ih => show nextFrontierNamesB P _ = _; rw [ih]; rfl

theorem consumersOf_frontier_layerIdx (P : List Node) (ls : List (List Node))
    (h : toposortNodes P = some ls) (s : List String) :
    ∀ k, ∀ n ∈ consumersOf P (frontierNames P s k), k ≤ layerIdx ls n := by
  intro k
  induction k with
  | zero => intro n _; exact Nat.zero_le _
  | succ k ih =>
    intro n hn
    rcases (mem_consumersOf P _ n).mp hn with ⟨hnP, i, hi, his⟩
    rcases List.mem_flatMap.mp his with ⟨m, hm, hio⟩
    have hpar : isParent m n := isParent_of_output_mem m n i hio hi
    have hk := ih m hm
    have hlt := layerIdx_parent_lt P.length P ls h m n
      (consumersOf_subset P _ hm) hnP hpar
    omega

theorem producersOf_frontier_layerIdx (P : List Node) (ls : List (List Node))
    (h : toposortNodes P = some ls) (s : List String) :
    ∀ k, ∀ m ∈ producersOf P (frontierNamesB P s k),
      layerIdx ls m + k < ls.length := by
  intro k
  induction k with
  | zero =>
    intro m hm
    have hmP : m ∈ P := producersOf_subset P _ hm
    have hperm := toposortLayers_flatten_perm P.length P ls h
    rcases layerIdx_lt_and_mem ls m (hperm.symm.subset hmP) with ⟨hlt, _⟩
    omega
  | succ k ih =>
    intro m hm
    rcases (mem_producersOf P _ m).mp hm with ⟨hmP, o, ho, hos⟩
    rcases List.mem_flatMap.mp hos with ⟨n, hn, hoi⟩
    have hpar : isParent m n := isParent_of_input_mem m n o hoi ho
    have hk := ih n hn
    have hlt := layerIdx_parent_lt P.length P ls h m n hmP
      (producersOf_subset P _ hn) hpar
    omega

theorem consumersOf_frontier_empty (P : List Node) (ls : List (List Node))
    (h : toposortNodes P = some ls) (s : List String) :
    consumersOf P (frontierNames P s ls.length) = [] := by
  by_contra hne
  rcases List.exists_mem_of_ne_nil _ hne with ⟨n, hn⟩
  have hge := consumersOf_frontier_layerIdx P ls h s ls.length n hn
  have hnP : n ∈ P := consumersOf_subset P _ hn
  have hperm := toposortLayers_flatten_perm P.length P ls h
  rcases layerIdx_lt_and_mem ls n (hperm.symm.subset hnP) with ⟨hlt, _⟩
  omega

theorem producersOf_frontier_empty (P : List Node) (ls : List (List Node))
    (h : toposortNodes P = some ls) (s : List String) :
    producersOf P (frontierNamesB P s ls.length) = [] := by
  by_contra hne
  rcases List.exists_mem_of_ne_nil _ hne with ⟨m, hm⟩
  have := producersOf_frontier_layerIdx P ls h s ls.length m hm
  omega

/-! ### The accumulator of the `from_inputs` loop -/

theorem fromInputsAux_acc_subset (P : List Node) :
    ∀ (fuel : Nat) (s : List String) (acc : List Node),
      acc ⊆ Pipeline.fromInputsAux P fuel s acc := by
  intro fuel
  induction fuel with
  | zero => intro s acc; simp [Pipeline.fromInputsAux]
  | succ fuel ih =>
    intro s acc
    simp only [Pipeline.fromInputsAux]
    by_cases hns : consumersOf P s = []
    · rw [if_pos hns]
      exact fun a ha => ha
    · rw [if_neg hns]
      intro a ha
      exact ih _ _ (List.mem_union_left ha _)

theorem mem_fromInputsAux_union (P : List Node) :
    ∀ (fuel : Nat) (s : List String) (acc : List Node) (x : Node),
      x ∈ Pipeline.fromInputsAux P fuel s acc ↔
        x ∈ acc ∨ x ∈ Pipeline.fromInputsAux P fuel s [] := by
  intro fuel
  induction fuel with
  | zero => intro s acc x; simp [Pipeline.fromInputsAux]
  | succ fuel ih =>
    intro s acc x
    simp only [Pipeline.fromInputsAux]
    by_cases hns : consumersOf P s = []
    · rw [if_pos hns, if_pos hns]; simp
    · rw [if_neg hns, if_neg hns]
      rw [ih _ _ x, ih _ ([] ∪ consumersOf P s) x]
      simp only [List.mem_union_iff, List.not_mem_nil, false_or]
      tauto

theorem consumersOf_subset_fromInputsAux (P : List Node) (fuel : Nat)
    (s : List String) (hfuel : 1 ≤ fuel) :
    consumersOf P s ⊆ Pipeline.fromInputsAux P fuel s [] := by
  cases fuel with
  | zero => omega
  | succ fuel =>
    simp only [Pipeline.fromInputsAux]
    by_cases hns : consumersOf P s = []
    · rw [if_pos hns, hns]
      simp
    · rw [if_neg hns]
      intro m hm
      exact fromInputsAux_acc_subset P _ _ _
        (List.mem_union_iff.mpr (Or.inr hm))

theorem fromInputsAux_subset (P : List Node) :
    ∀ (fuel : Nat) (s : List String) (acc : List Node),
      (∀ a ∈ acc, a ∈ P) → ∀ m ∈ Pipeline.fromInputsAux P fuel s acc, m ∈ P := by
  intro fuel
  induction fuel with
  | zero => intro s acc hacc m hm; exact hacc m hm
  | succ fuel ih =>
    intro s acc hacc m hm
    simp only [Pipeline.fromInputsAux] at hm
    by_cases hns : consumersOf P s = []
    · rw [if_pos hns] at hm; exact hacc m hm
    · rw [if_neg hns] at hm
      refine ih _ _ ?_ m hm
      intro a ha
      rcases List.mem_union_iff.mp ha with ha' | ha'
      · exact hacc a ha'
      · exact consumersOf_subset P s ha'

theorem toOutputsAux_subset (P : List Node) :
    ∀ (fuel : Nat) (s : List String) (acc : List Node),
      (∀ a ∈ acc, a ∈ P) → ∀ m ∈ Pipeline.toOutputsAux P fuel s acc, m ∈ P := by
  intro fuel
  induction fuel with
  | zero => intro s acc hacc m hm; exact hacc m hm
  | succ fuel ih =>
    intro s acc hacc m hm
    simp only [Pipeline.toOutputsAux] at hm
    by_cases hns : producersOf P s = []
    · rw [if_pos hns] at hm; exact hacc m hm
    · rw [if_neg hns] at hm
      refine ih _ _ ?_ m hm
      intro a ha
      rcases List.mem_union_iff.mp ha with ha' | ha'
      · exact hacc a ha'
      · exact producersOf_subset P s ha'

/-- Closure of the `from_inputs` loop result under literal-output
consumption, provided the frontier empties before the fuel runs out (which
`consumersOf_frontier_empty` guarantees for a sortable pipeline). -/
theorem fromInputsAux_closed (P : List Node) :
    ∀ (fuel : Nat) (s : List String) (K : Nat), K < fuel →
      consumersOf P (frontierNames P s K) = [] →
      ∀ m ∈ Pipeline.fromInputsAux P fuel s [], ∀ n ∈ P,
        (∃ o ∈ m.outputs, o ∈ n.input_namespaces) →
        n ∈ Pipeline.fromInputsAux P fuel s [] := by
  intro fuel
  induction fuel with
  | zero => intro s K hK; omega
  | succ fuel ih =>
    intro s K hK hempty m hm n hn ho
    rcases ho with ⟨o, ho, hio⟩
    simp only [Pipeline.fromInputsAux] at hm ⊢
    by_cases hns : consumersOf P s = []
    · rw [if_pos hns] at hm
      simp at hm
    · rw [if_neg hns] at hm ⊢
      have hK1 : 1 ≤ K := by
        rcases Nat.eq_zero_or_pos K with rfl | h1
        · exact absurd hempty hns
        · exact h1
      have hempty' : consumersOf P
          (frontierNames P (outputsOfList (consumersOf P s)) (K - 1)) = [] := by
        show consumersOf P
          (frontierNames P (nextFrontierNames P s) (K - 1)) = []
        rw [frontierNames_shift, Nat.sub_add_cancel hK1]
        exact hempty
      rw [mem_fromInputsAux_union, List.mem_union_iff] at hm
      rw [mem_fromInputsAux_union, List.mem_union_iff]
      rcases hm with hm0 | hm'
      · -- m joined in this round: n is a consumer of the next frontier
        have hm' : m ∈ consumersOf P s := by
          rcases hm0 with hm0 | hm0
          · simp at hm0
          · exact hm0
        have hn' : n ∈ consumersOf P (outputsOfList (consumersOf P s)) := by
          rw [mem_consumersOf]
          exact ⟨hn, o, hio, List.mem_flatMap.mpr ⟨m, hm', ho⟩⟩
        exact Or.inr (consumersOf_subset_fromInputsAux P fuel _
          (by omega) hn')
      · -- m joined later: apply the induction hypothesis
        have := ih (outputsOfList (consumersOf P s)) (K - 1) (by omega) hempty'
          m hm' n hn ⟨o, ho, hio⟩
        exact Or.inr this

/-! ### Membership in the pipeline name sets -/

theorem mem_all_inputs (P : List Node) (d : String) :
    d ∈ Pipeline.all_inputs P ↔ ∃ n ∈ P, d ∈ n.inputs := by
  simp [Pipeline.all_inputs, List.mem_dedup, List.mem_flatMap]

theorem mem_all_outputs (P : List Node) (d : String) :
    d ∈ Pipeline.all_outputs P ↔ ∃ n ∈ P, d ∈ n.outputs := by
  simp [Pipeline.all_outputs, List.mem_dedup, List.mem_flatMap]

theorem mem_data_sets (P : List Node) (d : String) :
    d ∈ Pipeline.data_sets P ↔
      d ∈ Pipeline.all_outputs P ∨ d ∈ Pipeline.all_inputs P := by
  simp [Pipeline.data_sets, List.mem_dedup, List.mem_append]

/-! ### Claim theorems -/

/-- C7: for every pipeline value (in particular every constructed pipeline),
`inputs()` is a subset of `all_inputs()`, and no name in `inputs()` has a
namespace that is also the namespace of some element of `all_outputs()`. -/
theorem claim_inputs_free (P : List Node) :
    Pipeline.inputs P ⊆ Pipeline.all_inputs P ∧
    ∀ d ∈ Pipeline.inputs P,
      get_namespace d ∉ (Pipeline.all_outputs P).map get_namespace := by
  constructor
  · intro d hd
    exact (List.mem_filter.mp hd).1
  · intro d hd hmem
    rcases List.mem_filter.mp hd with ⟨h1, h2⟩
    have h2' : get_namespace d ∉ Pipeline.intermediates P := by simpa using h2
    exact h2' (List.mem_inter_iff.mpr
      ⟨List.mem_map_of_mem get_namespace h1, hmem⟩)

/-- C7, witness: the free-input properties hold of the concrete scenario-1
pipeline. -/
theorem claim_inputs_free_witness :
    Pipeline.inputs sc1 ⊆ Pipeline.all_inputs sc1 ∧
    ∀ d ∈ Pipeline.inputs sc1,
      get_namespace d ∉ (Pipeline.all_outputs sc1).map get_namespace :=
  claim_inputs_free sc1

/-- C10: the constructor rejects only the null sentinel: the empty node list
is accepted, and the resulting pipeline has empty node list and empty
`all_inputs`, `all_outputs`, `inputs` and `outputs`. -/
theorem claim_empty_pipeline :
    mkPipeline none = .error .noNodeList ∧
    mkPipeline (some []) = .ok [] ∧
    Pipeline.nodes [] = [] ∧
    Pipeline.all_inputs [] = [] ∧
    Pipeline.all_outputs [] = [] ∧
    Pipeline.inputs [] = [] ∧
    Pipeline.outputs [] = [] := by
  refine ⟨rfl, by decide, rfl, rfl, rfl, rfl, rfl⟩

/-- C5: `run` shallow-copies the catalog first (the copy preserving the
registrations), and when `pipeline.inputs() - catalog.list()` is non-empty it
raises an error naming exactly those missing input names; the embedding
passes the caller's catalog by value, so the caller's catalog is untouched. -/
theorem claim_run_missing_input (P : List Node) (c : Catalog)
    (h : listDiff (Pipeline.inputs P) c.listNames ≠ []) :
    run P c = .error (.unsatisfiedInputs
      (listDiff (Pipeline.inputs P) c.listNames)) ∧
    c.shallow_copy = c := by
  refine ⟨?_, rfl⟩
  simp only [run, Catalog.shallow_copy]
  rw [if_pos h]

/-- C5, witness: running scenario 1 against a catalog lacking `b` raises the
error, and the reported missing-name set is exactly `b`. -/
theorem claim_run_missing_input_witness :
    listDiff (Pipeline.inputs sc1) catB.listNames ≠ [] ∧
    (run sc1 catB = .error (.unsatisfiedInputs
        (listDiff (Pipeline.inputs sc1) catB.listNames)) ∧
      catB.shallow_copy = catB) ∧
    listDiff (Pipeline.inputs sc1) catB.listNames = ["b"] :=
  ⟨by decide, claim_run_missing_input sc1 catB (by decide), by decide⟩

theorem mem_add_iff (P Q : List Node) (lsP lsQ : List (List Node))
    (hP : toposortNodes P = some lsP) (hQ : toposortNodes Q = some lsQ)
    (x : Node) : x ∈ Pipeline.add P Q ↔ x ∈ P ∨ x ∈ Q := by
  unfold Pipeline.add
  rw [List.mem_dedup, List.mem_append, mem_nodes_iff_of_toposort P lsP hP,
    mem_nodes_iff_of_toposort Q lsQ hQ]

theorem add_toFinset (P Q : List Node) (lsP lsQ : List (List Node))
    (hP : toposortNodes P = some lsP) (hQ : toposortNodes Q = some lsQ) :
    (Pipeline.add P Q).toFinset = P.toFinset ∪ Q.toFinset := by
  ext x
  simp only [List.mem_toFinset, Finset.mem_union]
  exact mem_add_iff P Q lsP lsQ hP hQ x

/-- C8: for constructible pipelines whose unions are constructible, the node
set of `P + Q` keyed by node name is the union of the two name sets, the node
set of `P + Q` is the union of the two node sets, and `+` is commutative and
associative up to node order. -/
theorem claim_add_union (P Q R : List Node)
    (hP : Valid P) (hQ : Valid Q) (hR : Valid R)
    (hPQ : Valid (Pipeline.add P Q)) (hQR : Valid (Pipeline.add Q R)) :
    ((Pipeline.add P Q).map Node.name).toFinset =
      (P.map Node.name).toFinset ∪ (Q.map Node.name).toFinset ∧
    (Pipeline.add P Q).toFinset = P.toFinset ∪ Q.toFinset ∧
    (Pipeline.add P Q).toFinset = (Pipeline.add Q P).toFinset ∧
    (Pipeline.add (Pipeline.add P Q) R).toFinset =
      (Pipeline.add P (Pipeline.add Q R)).toFinset := by
  rcases valid_toposort P hP with ⟨lsP, hPt⟩
  rcases valid_toposort Q hQ with ⟨lsQ, hQt⟩
  rcases valid_toposort R hR with ⟨lsR, hRt⟩
  rcases valid_toposort _ hPQ with ⟨lsPQ, hPQt⟩
  rcases valid_toposort _ hQR with ⟨lsQRt, hQRt⟩
  have hunion := add_toFinset P Q lsP lsQ hPt hQt
  refine ⟨?_, hunion, ?_, ?_⟩
  · ext a
    simp only [List.mem_toFinset, Finset.mem_union, List.mem_map]
    constructor
    · rintro ⟨n, hn, rfl⟩
      rcases (mem_add_iff P Q lsP lsQ hPt hQt n).mp hn with hn' | hn'
      · exact Or.inl ⟨n, hn', rfl⟩
      · exact Or.inr ⟨n, hn', rfl⟩
    · rintro (⟨n, hn, rfl⟩ | ⟨n, hn, rfl⟩)
      · exact ⟨n, (mem_add_iff P Q lsP lsQ hPt hQt n).mpr (Or.inl hn), rfl⟩
      · exact ⟨n, (mem_add_iff P Q lsP lsQ hPt hQt n).mpr (Or.inr hn), rfl⟩
  · rw [hunion, add_toFinset Q P lsQ lsP hQt hPt, Finset.union_comm]
  · rw [add_toFinset _ R lsPQ lsR hPQt hRt, hunion,
      add_toFinset P _ lsP lsQRt hPt hQRt, add_toFinset Q R lsQ lsR hQt hRt,
      Finset.union_assoc]

/-- C8, witness: the union properties at the concrete one-node pipelines of
scenario 1 (including an empty third pipeline). -/
theorem claim_add_union_witness :
    (Valid [f1] ∧ Valid [f2] ∧ Valid ([] : List Node) ∧
      Valid (Pipeline.add [f1] [f2]) ∧ Valid (Pipeline.add [f2] [])) ∧
    (((Pipeline.add [f1] [f2]).map Node.name).toFinset =
        ([f1].map Node.name).toFinset ∪ ([f2].map Node.name).toFinset ∧
      (Pipeline.add [f1] [f2]).toFinset = [f1].toFinset ∪ [f2].toFinset ∧
      (Pipeline.add [f1] [f2]).toFinset = (Pipeline.add [f2] [f1]).toFinset ∧
      (Pipeline.add (Pipeline.add [f1] [f2]) []).toFinset =
        (Pipeline.add [f1] (Pipeline.add [f2] [])).toFinset) :=
  ⟨⟨by decide, by decide, by decide, by decide, by decide⟩,
    claim_add_union [f1] [f2] [] (by decide) (by decide) (by decide)
      (by decide) (by decide)⟩

theorem mem_flatten_take {α : Type} :
    ∀ (ls : List (List α)) (i j : Nat) (hj : j < ls.length), j < i →
      ∀ a ∈ ls.get ⟨j, hj⟩, a ∈ (ls.take i).flatten := by
  intro ls
  induction ls with
  | nil => intro i j hj; simp at hj
  | cons l rest ih =>
    intro i j hj hji a ha
    cases i with
    | zero => omega
    | succ i' =>
      cases j with
      | zero =>
        simp only [List.take_succ_cons, List.flatten_cons, List.mem_append]
        exact Or.inl (by simpa using ha)
      | succ j' =>
        simp only [List.take_succ_cons, List.flatten_cons, List.mem_append]
        refine Or.inr (ih i' j' (by simpa using hj) (by omega) a ?_)
        simpa using ha

theorem mem_flatten_drop {α : Type} :
    ∀ (ls : List (List α)) (i j : Nat) (hj : j < ls.length), i ≤ j →
      ∀ a ∈ ls.get ⟨j, hj⟩, a ∈ (ls.drop i).flatten := by
  intro ls
  induction ls with
  | nil => intro i j hj; simp at hj
  | cons l rest ih =>
    intro i j hj hij a ha
    cases i with
    | zero =>
      rw [List.drop_zero]
      exact List.mem_flatten.mpr ⟨_, List.get_mem _ _ hj, ha⟩
    | succ i' =>
      cases j with
      | zero => omega
      | succ j' =>
        simp only [List.drop_succ_cons]
        exact ih i' j' (by simpa using hj) (by omega) a (by simpa using ha)

/-- The precedence split: a parent appears strictly before its child in the
flattened topological order. -/
theorem nodes_precedence (P : List Node) (ls : List (List Node))
    (h : toposortNodes P = some ls) (u w : Node) (hu : u ∈ P) (hw : w ∈ P)
    (hpar : isParent u w) :
    ∃ l₁ l₂, Pipeline.nodes P = l₁ ++ l₂ ∧ u ∈ l₁ ∧ w ∈ l₂ := by
  have hperm := toposortLayers_flatten_perm P.length P ls h
  rcases layerIdx_lt_and_mem ls u (hperm.symm.subset hu) with ⟨hlu, hmu⟩
  rcases layerIdx_lt_and_mem ls w (hperm.symm.subset hw) with ⟨hlw, hmw⟩
  have hlt := layerIdx_parent_lt P.length P ls h u w hu hw hpar
  refine ⟨(ls.take (layerIdx ls w)).flatten, (ls.drop (layerIdx ls w)).flatten,
    ?_, ?_, ?_⟩
  · unfold Pipeline.nodes Pipeline.grouped_nodes
    rw [h]
    show ls.flatten = _
    rw [← List.flatten_append, List.take_append_drop]
  · exact mem_flatten_take ls (layerIdx ls w) (layerIdx ls u) hlu hlt u hmu
  · exact mem_flatten_drop ls (layerIdx ls w) (layerIdx ls w) hlw le_rfl w hmw

/-- The head layer of a successful sort is exactly the set of nodes with no
dependencies. -/
theorem first_layer_ready (P : List Node) (l0 : List Node)
    (rest : List (List Node)) (h : toposortNodes P = some (l0 :: rest)) :
    ∀ n, n ∈ l0 ↔ n ∈ P ∧ ¬ ∃ p ∈ P, isParent p n := by
  intro n
  cases P with
  | nil => simp [toposortNodes, toposortLayers] at h
  | cons x xs =>
    simp only [toposortNodes, List.length_cons, toposortLayers] at h
    by_cases hr : readyNodes (x :: xs) = []
    · rw [if_pos hr] at h; cases h
    · rw [if_neg hr] at h
      rcases Option.map_eq_some'.mp h with ⟨ls', _, heq⟩
      injection heq with h1 _
      rw [← h1]
      exact mem_readyNodes (x :: xs) n

/-- C4: for a constructed pipeline, `nodes` is a permutation of the
construction nodes in which every parent precedes its children, and
`grouped_nodes` is a layered sequence in which each node's dependencies lie
in strictly earlier layers, the head layer being exactly the nodes with no
dependencies. -/
theorem claim_topological_order (P : List Node) (hv : Valid P) :
    ∃ ls, toposortNodes P = some ls ∧
      Pipeline.grouped_nodes P = ls ∧
      List.Perm (Pipeline.nodes P) P ∧
      (∀ u ∈ P, ∀ w ∈ P, isParent u w →
        ∃ l₁ l₂, Pipeline.nodes P = l₁ ++ l₂ ∧ u ∈ l₁ ∧ w ∈ l₂) ∧
      (∀ (i : Nat) (hi : i < ls.length), ∀ n ∈ ls.get ⟨i, hi⟩, ∀ p ∈ P,
        isParent p n →
          ∃ (j : Nat) (hj : j < ls.length), j < i ∧ p ∈ ls.get ⟨j, hj⟩) ∧
      (∀ l0 rest, ls = l0 :: rest →
        ∀ n, n ∈ l0 ↔ n ∈ P ∧ ¬ ∃ p ∈ P, isParent p n) := by
  rcases valid_toposort P hv with ⟨ls, h⟩
  refine ⟨ls, h, ?_, nodes_perm_of_toposort P ls h, ?_, ?_, ?_⟩
  · unfold Pipeline.grouped_nodes
    rw [h]
    rfl
  · intro u hu w hw hpar
    exact nodes_precedence P ls h u w hu hw hpar
  · exact toposortLayers_layered P.length P ls h
  · intro l0 rest hls
    rw [hls] at h
    exact first_layer_ready P l0 rest h

/-- C4, witness: the topological-order properties at the concrete scenario-1
pipeline. -/
theorem claim_topological_order_witness :
    Valid sc1 ∧
    (∃ ls, toposortNodes sc1 = some ls ∧
      Pipeline.grouped_nodes sc1 = ls ∧
      List.Perm (Pipeline.nodes sc1) sc1 ∧
      (∀ u ∈ sc1, ∀ w ∈ sc1, isParent u w →
        ∃ l₁ l₂, Pipeline.nodes sc1 = l₁ ++ l₂ ∧ u ∈ l₁ ∧ w ∈ l₂) ∧
      (∀ (i : Nat) (hi : i < ls.length), ∀ n ∈ ls.get ⟨i, hi⟩, ∀ p ∈ sc1,
        isParent p n →
          ∃ (j : Nat) (hj : j < ls.length), j < i ∧ p ∈ ls.get ⟨j, hj⟩) ∧
      (∀ l0 rest, ls = l0 :: rest →
        ∀ n, n ∈ l0 ↔ n ∈ sc1 ∧ ¬ ∃ p ∈ sc1, isParent p n)) :=
  ⟨by decide, claim_topological_order sc1 (by decide)⟩

/-- C9: for a constructed (hence acyclic) pipeline and names drawn from its
data sets, both frontier iterations reach an empty step within `P.length`
rounds — the `while True` loops of `from_inputs` and `to_outputs` terminate —
and both selectors return a pipeline. -/
theorem claim_frontier_termination (P : List Node) (s : List String)
    (hv : Valid P) (hs : ∀ d ∈ s, d ∈ Pipeline.data_sets P) :
    (∃ k ≤ P.length, consumersOf P (frontierNames P s k) = []) ∧
    (∃ k ≤ P.length, producersOf P (frontierNamesB P s k) = []) ∧
    (Pipeline.from_inputs P s).isSome ∧
    (Pipeline.to_outputs P s).isSome := by
  rcases valid_toposort P hv with ⟨ls, h⟩
  have hall : s.all (fun d => decide (d ∈ Pipeline.data_sets P)) = true :=
    List.all_eq_true.mpr (fun d hd => decide_eq_true (hs d hd))
  refine ⟨⟨ls.length, toposortLayers_length_le P.length P ls h,
      consumersOf_frontier_empty P ls h s⟩,
    ⟨ls.length, toposortLayers_length_le P.length P ls h,
      producersOf_frontier_empty P ls h s⟩, ?_, ?_⟩
  · unfold Pipeline.from_inputs
    rw [if_pos hall]
    simp
  · unfold Pipeline.to_outputs
    rw [if_pos hall]
    simp

/-- C9, witness: the frontier iterations terminate on the scenario-1 pipeline
starting from `a`. -/
theorem claim_frontier_termination_witness :
    (Valid sc1 ∧ ∀ d ∈ ["a"], d ∈ Pipeline.data_sets sc1) ∧
    ((∃ k ≤ sc1.length, consumersOf sc1 (frontierNames sc1 ["a"] k) = []) ∧
      (∃ k ≤ sc1.length, producersOf sc1 (frontierNamesB sc1 ["a"] k) = []) ∧
      (Pipeline.from_inputs sc1 ["a"]).isSome ∧
      (Pipeline.to_outputs sc1 ["a"]).isSome) :=
  ⟨⟨by decide, by decide⟩,
    claim_frontier_termination sc1 ["a"] (by decide) (by decide)⟩

/-- C2 (amended): for a constructed pipeline and node names present in it,
`from_nodes` succeeds, contains the `only_nodes` selection, and is closed
under consumption of a member's literal output names: any node of `P` one of
whose input namespaces equals a literal output name of a member is itself a
member.  (Closure at the namespace level fails in the presence of
transcoding; see the counterexample.) -/
theorem claim_from_nodes_closure (P : List Node) (names : List String)
    (hv : Valid P) (hnames : ∀ m ∈ names, ∃ n ∈ P, n.name = m) :
    ∃ only res, Pipeline.only_nodes P names = some only ∧
      Pipeline.from_nodes P names = some res ∧
      (∀ n ∈ only, n ∈ res) ∧
      (∀ n ∈ P, (∃ m ∈ res, ∃ o ∈ m.outputs, o ∈ n.input_namespaces) →
        n ∈ res) := by
  rcases valid_toposort P hv with ⟨ls, h⟩
  have hcond : names.all (fun m => decide (∃ n ∈ P, n.name = m)) = true :=
    List.all_eq_true.mpr (fun m hm => decide_eq_true (hnames m hm))
  set only := names.filterMap
    (fun m => P.find? (fun n => decide (n.name = m))) with honly_def
  have honly : Pipeline.only_nodes P names = some only := by
    unfold Pipeline.only_nodes
    rw [if_pos hcond]
  have honly_sub : ∀ n ∈ only, n ∈ P := by
    intro n hn
    rcases List.mem_filterMap.mp hn with ⟨m, _, hfind⟩
    exact List.mem_of_find?_eq_some hfind
  set s0 := Pipeline.allOutputsList only with hs0_def
  have hs0 : s0.all (fun d => decide (d ∈ Pipeline.data_sets P)) = true := by
    apply List.all_eq_true.mpr
    intro d hd
    apply decide_eq_true
    rcases List.mem_dedup.mp hd with hd'
    rcases List.mem_flatMap.mp hd' with ⟨n, hn, hdn⟩
    exact (mem_data_sets P d).mpr
      (Or.inl ((mem_all_outputs P d).mpr ⟨n, honly_sub n hn, hdn⟩))
  set fi := Pipeline.fromInputsAux P (P.length + 1) s0 [] with hfi_def
  have hfi : Pipeline.from_inputs P s0 = some fi := by
    unfold Pipeline.from_inputs
    rw [if_pos hs0]
  have hres : Pipeline.from_nodes P names = some (Pipeline.add only fi) := by
    unfold Pipeline.from_nodes
    rw [honly]
    show (match Pipeline.from_inputs P (Pipeline.allOutputsList only) with
      | none => none
      | some fi => some (Pipeline.add only fi)) = _
    rw [← hs0_def, hfi]
  have hfi_sub : ∀ m ∈ fi, m ∈ P :=
    fromInputsAux_subset P (P.length + 1) s0 [] (by simp)
  rcases toposortNodes_isSome_of_subset P ls h only honly_sub with ⟨lsO, hO⟩
  rcases toposortNodes_isSome_of_subset P ls h fi hfi_sub with ⟨lsF, hF⟩
  have hmem : ∀ x, x ∈ Pipeline.add only fi ↔ x ∈ only ∨ x ∈ fi :=
    mem_add_iff only fi lsO lsF hO hF
  refine ⟨only, Pipeline.add only fi, honly, hres, ?_, ?_⟩
  · intro n hn
    exact (hmem n).mpr (Or.inl hn)
  · intro n hn hcons
    rcases hcons with ⟨m, hm, o, ho, hio⟩
    rcases (hmem m).mp hm with hmO | hmF
    · have ho' : o ∈ s0 := by
        rw [hs0_def]
        exact List.mem_dedup.mpr (List.mem_flatMap.mpr ⟨m, hmO, ho⟩)
      have hn' : n ∈ consumersOf P s0 :=
        (mem_consumersOf P s0 n).mpr ⟨hn, o, hio, ho'⟩
      exact (hmem n).mpr (Or.inr
        (consumersOf_subset_fromInputsAux P (P.length + 1) s0 (by omega) hn'))
    · have hK : ls.length < P.length + 1 := by
        have := toposortLayers_length_le P.length P ls h
        omega
      have hclosed := fromInputsAux_closed P (P.length + 1) s0 ls.length hK
        (consumersOf_frontier_empty P ls h s0) m hmF n hn ⟨o, ho, hio⟩
      exact (hmem n).mpr (Or.inr hclosed)

/-- C2, witness: the amended closure at the diamond pipeline starting from
its first node. -/
theorem claim_from_nodes_closure_witness :
    (Valid dmd ∧ ∀ m ∈ ["f1"], ∃ n ∈ dmd, n.name = m) ∧
    (∃ only res, Pipeline.only_nodes dmd ["f1"] = some only ∧
      Pipeline.from_nodes dmd ["f1"] = some res ∧
      (∀ n ∈ only, n ∈ res) ∧
      (∀ n ∈ dmd, (∃ m ∈ res, ∃ o ∈ m.outputs, o ∈ n.input_namespaces) →
        n ∈ res)) :=
  ⟨⟨by decide, by decide⟩,
    claim_from_nodes_closure dmd ["f1"] (by decide) (by decide)⟩

/-- C2, counterexample: in the constructed pipeline `tpipe`, node `g2`
consumes (on the namespace level) the output `x@csv` of `g1`, yet
`from_nodes` starting at `g1` returns only `g1` — the result is not closed
under namespace-level consumption. -/
theorem claim_from_nodes_namespace_counterexample :
    Valid tpipe ∧
    Pipeline.from_nodes tpipe ["g1"] = some [g1] ∧
    g1 ∈ [g1] ∧ g2 ∈ tpipe ∧
    (∃ o ∈ g1.outputs, get_namespace o ∈ g2.input_namespaces) ∧
    g2 ∉ [g1] := by decide

theorem length_filter_eq_one {α : Type} [DecidableEq α] (l : List α) (d : α)
    (hnd : l.Nodup) (hd : d ∈ l) :
    (l.filter (fun x => decide (x = d))).length = 1 := by
  induction l with
  | nil => simp at hd
  | cons a l ih =>
    rcases List.mem_cons.mp hd with rfl | hd'
    · rw [List.filter_cons_of_pos (by simp)]
      have hnotin := (List.nodup_cons.mp hnd).1
      have hnil : l.filter (fun x => decide (x = d)) = [] := by
        apply List.filter_eq_nil_iff.mpr
        intro b hb
        simp only [decide_eq_true_eq]
        rintro rfl
        exact hnotin hb
      simp [hnil]
    · have hna : ¬ (a = d) := by
        rintro rfl
        exact (List.nodup_cons.mp hnd).1 hd'
      rw [List.filter_cons_of_neg (by simpa using hna)]
      exact ih (List.nodup_cons.mp hnd).2 hd'

/-- C6: when `run` passes the input check, it calls `set_remaining_loads`
exactly once for every name of `pipeline.all_inputs()`, with the count equal
to the number of nodes directly consuming that name. -/
theorem claim_run_load_counts (P : List Node) (c : Catalog) (hv : Valid P)
    (hsat : listDiff (Pipeline.inputs P) c.listNames = []) :
    ∃ t, run P c = .ok t ∧
      t.loadCounts = (Pipeline.all_inputs P).map
        (fun d => (d, (Pipeline.nodes (consumersOf P [d])).length)) ∧
      ∀ d ∈ Pipeline.all_inputs P,
        (t.loadCounts.filter (fun e => decide (e.1 = d))).length = 1 ∧
        (d, (consumersOf P [d]).length) ∈ t.loadCounts := by
  rcases valid_toposort P hv with ⟨ls, h⟩
  simp only [run, Catalog.shallow_copy]
  rw [if_neg (fun hne => hne hsat)]
  refine ⟨_, rfl, rfl, ?_⟩
  intro d hd
  have hnd : (Pipeline.all_inputs P).Nodup := List.nodup_dedup _
  constructor
  · rw [List.filter_map]
    rw [List.length_map]
    have hcongr : (Pipeline.all_inputs P).filter
        ((fun e : String × Nat => decide (e.1 = d)) ∘
          (fun d' => (d', (Pipeline.nodes (consumersOf P [d'])).length))) =
        (Pipeline.all_inputs P).filter (fun x => decide (x = d)) := by
      apply List.filter_congr
      intro x _
      rfl
    rw [hcongr]
    exact length_filter_eq_one _ d hnd hd
  · have hlen : (Pipeline.nodes (consumersOf P [d])).length =
        (consumersOf P [d]).length := by
      rcases toposortNodes_isSome_of_subset P ls h (consumersOf P [d])
        (consumersOf_subset P [d]) with ⟨ls', h'⟩
      exact nodes_length_of_toposort _ ls' h'
    rw [← hlen]
    exact List.mem_map_of_mem
      (fun d' => (d', (Pipeline.nodes (consumersOf P [d'])).length)) hd

/-- C6, witness: on the diamond pipeline with catalog `x`,
`set_remaining_loads` is called once for `x` with count 2. -/
theorem claim_run_load_counts_witness :
    (Valid dmd ∧ listDiff (Pipeline.inputs dmd) catX.listNames = []) ∧
    (∃ t, run dmd catX = .ok t ∧
      t.loadCounts = (Pipeline.all_inputs dmd).map
        (fun d => (d, (Pipeline.nodes (consumersOf dmd [d])).length)) ∧
      ∀ d ∈ Pipeline.all_inputs dmd,
        (t.loadCounts.filter (fun e => decide (e.1 = d))).length = 1 ∧
        (d, (consumersOf dmd [d]).length) ∈ t.loadCounts) ∧
    "x" ∈ Pipeline.all_inputs dmd ∧ (consumersOf dmd ["x"]).length = 2 :=
  ⟨⟨by decide, by decide⟩,
    claim_run_load_counts dmd catX (by decide) (by decide),
    by decide, by decide⟩

theorem to_json_data (v : String) (P : List Node) :
    (to_json v P).data = '\x7b' ::
      ((jsonStr "kedro_version" ++ ": " ++ jsonStr v ++ ", " ++
        jsonStr "pipeline" ++ ": [" ++
        String.intercalate ", " ((transformed P).map entryJson) ++ "]").data
        ++ ['\x7d']) := by
  show ((("\x7b" : String) ++ _) ++ ("\x7d" : String)).data = _
  rw [String.data_append, String.data_append]
  rfl

/-- C3 (amended): `to_json` yields one JSON object (opening and closing with
braces, hence no trailing newline); its `pipeline` entries follow the
topologically sorted `nodes` list, a permutation of the construction nodes in
which every parent precedes its children; each entry's `inputs` and `outputs`
are the node's namespaces and its `tags` are the node's tag list as iterated
(the source applies no sorting to them; see the counterexample). -/
theorem claim_to_json_shape (v : String) (P : List Node) (hv : Valid P) :
    (to_json v P).data.head? = some '\x7b' ∧
    (to_json v P).data.getLast? = some '\x7d' ∧
    (to_json v P).data.getLast? ≠ some '\n' ∧
    transformed P = (Pipeline.nodes P).map (fun n =>
      { name := n.name
        inputs := n.inputs.map get_namespace
        outputs := n.outputs.map get_namespace
        tags := n.tags }) ∧
    List.Perm (Pipeline.nodes P) P ∧
    (∀ u ∈ P, ∀ w ∈ P, isParent u w →
      ∃ l₁ l₂, Pipeline.nodes P = l₁ ++ l₂ ∧ u ∈ l₁ ∧ w ∈ l₂) := by
  rcases valid_toposort P hv with ⟨ls, h⟩
  have hlast : (to_json v P).data.getLast? = some '\x7d' := by
    rw [to_json_data]
    rw [show ('\x7b' :: ((jsonStr "kedro_version" ++ ": " ++ jsonStr v ++ ", " ++
        jsonStr "pipeline" ++ ": [" ++
        String.intercalate ", " ((transformed P).map entryJson) ++ "]").data
        ++ ['\x7d'])) = ('\x7b' :: (jsonStr "kedro_version" ++ ": " ++
        jsonStr v ++ ", " ++ jsonStr "pipeline" ++ ": [" ++
        String.intercalate ", " ((transformed P).map entryJson) ++ "]").data)
        ++ ['\x7d'] from by simp]
    rw [List.getLast?_append]
    rfl
  refine ⟨by rw [to_json_data]; rfl, hlast, by rw [hlast]; decide, rfl,
    nodes_perm_of_toposort P ls h, ?_⟩
  intro u hu w hw hpar
  exact nodes_precedence P ls h u w hu hw hpar

/-- C3, witness: the JSON shape properties at the scenario-1 pipeline. -/
theorem claim_to_json_shape_witness :
    Valid sc1 ∧
    ((to_json "0.14.0" sc1).data.head? = some '\x7b' ∧
      (to_json "0.14.0" sc1).data.getLast? = some '\x7d' ∧
      (to_json "0.14.0" sc1).data.getLast? ≠ some '\n' ∧
      transformed sc1 = (Pipeline.nodes sc1).map (fun n =>
        { name := n.name
          inputs := n.inputs.map get_namespace
          outputs := n.outputs.map get_namespace
          tags := n.tags }) ∧
      List.Perm (Pipeline.nodes sc1) sc1 ∧
      (∀ u ∈ sc1, ∀ w ∈ sc1, isParent u w →
        ∃ l₁ l₂, Pipeline.nodes sc1 = l₁ ++ l₂ ∧ u ∈ l₁ ∧ w ∈ l₂)) :=
  ⟨by decide, claim_to_json_shape "0.14.0" sc1 (by decide)⟩

/-- C3, counterexample: in the constructed one-node pipeline over `tgNode`,
the `tags` list of the JSON entry is the tag set's iteration order
`["z", "q"]`, which is not sorted — `to_json` does not sort tags. -/
theorem claim_to_json_tags_counterexample :
    Valid [tgNode] ∧
    (transformed [tgNode]).map JsonEntry.tags = [["z", "q"]] ∧
    ¬ List.Sorted (fun a b : String => a ≤ b) ["z", "q"] := by
  refine ⟨by decide, by decide, ?_⟩
  intro hsort
  have h1 := List.rel_of_sorted_cons hsort "q" (by simp)
  exact absurd
    (String.lt_iff_toList_lt.mpr (List.Lex.rel (by decide : 'q' < 'z')))
    (not_lt.mpr h1)

/-- C1, counterexample: in the `run_only_missing` scenario (catalog `a`, `b`,
`d` with `d` not persisted), the call completes, but the returned mapping
does not contain `d` — `d` is registered in the catalog, so it is excluded
from the free outputs that `run` returns (its value is saved to the catalog
entry instead). -/
theorem claim_run_only_missing_counterexample :
    runOk (runOnlyMissing sc1 catC1) = true ∧
    "d" ∉ returnedKeysOf (runOnlyMissing sc1 catC1) := by decide

/-- C1 (amended): in the `run_only_missing` scenario, the computed `to_rerun`
pipeline's node set equals the original pipeline's node set (both `f1` and
`f2`), and the returned mapping is empty — in particular it does not contain
`d`, whose value is persisted through the catalog instead. -/
theorem claim_run_only_missing_scenario :
    ((toRerunOf sc1 catC1).getD []).toFinset = sc1.toFinset ∧
    (((toRerunOf sc1 catC1).getD []).map Node.name).toFinset =
      {"f1", "f2"} ∧
    (toRerunOf sc1 catC1).isSome ∧
    runOk (runOnlyMissing sc1 catC1) = true ∧
    returnedKeysOf (runOnlyMissing sc1 catC1) = [] := by decide
